import Mathlib

/-!
Verification of the painting-app core (grid.py, layer_store.py, undo.py, replay.py)
against its natural-language specification.

The Python sources are shallowly embedded: each class becomes a Lean structure,
each mutating method a pure function from the old state to the new state plus
the method's return value, and each `raise` either an `Except.error` or an
`Option.none`.  The support modules (`data_structures`, `layer_util`, `action`)
are not among the sources; where their behaviour matters it is modelled from
the specification and marked `Modelled from the spec:` in the doc comment.
-/

namespace PaintingApp

/-- Colour is a fixed 3-channel integer triple (spec section 1). -/
abbrev Color := Int × Int × Int

/-- Modelled from the spec: `layer_util.Layer` (the LayerKind value) is not among
the sources.  Per spec section 3 a LayerKind is an immutable value with a unique
unsigned `index`, a `name` used as secondary sort key, and a pure colour
transform.  The transform is passed separately (an `applyFn` parameter on the
operations that invoke it) so that `Layer` keeps decidable equality. -/
structure Layer where
  index : Nat
  name : String
deriving DecidableEq, Repr

/-- Modelled from the spec: `ListItem` from `data_structures.sorted_list_adt`
(not among the sources): a stored value paired with its sort key. -/
structure ListItem (α : Type) (K : Type) where
  value : α
  key : K
deriving DecidableEq, Repr

namespace ArraySortedList

variable {α K : Type} [DecidableEq α] [DecidableEq K]

/-- Insertion into a key-sorted list at the position found by the
binary-search pass of `_index_to_add`; `le` is the key comparison the sorted
list orders by. -/
def insertSorted (le : K → K → Bool) (it : ListItem α K) :
    List (ListItem α K) → List (ListItem α K)
  | [] => [it]
  | x :: xs => if le it.key x.key then it :: x :: xs else x :: insertSorted le it xs

/-- Whether some entry of the list already carries the given key. -/
def hasKey (l : List (ListItem α K)) (k : K) : Bool :=
  l.any (fun e => e.key == k)

/-- Modelled from the spec: `ArraySortedList.add` from
`data_structures.array_sorted_list` (not among the sources).  Spec section 4.3:
the collection holds "at most one entry per distinct LayerKind (`index` is the
dedup key)" and add "inserts if no entry with this `index` exists; if one
exists, the call is a no-op (no duplicate insertion)". -/
def add (le : K → K → Bool) (l : List (ListItem α K)) (it : ListItem α K) :
    List (ListItem α K) :=
  if hasKey l it.key then l else insertSorted le it l

/-- Membership test of `ArraySortedList.__contains__`: an entry equal to the
probe item (same value and same key) is present. -/
def containsItem (l : List (ListItem α K)) (it : ListItem α K) : Bool :=
  l.any (fun e => e == it)

/-- `ArraySortedList.remove`: delete the first entry equal to the item. -/
def remove (it : ListItem α K) : List (ListItem α K) → List (ListItem α K)
  | [] => []
  | x :: xs => if x == it then xs else x :: remove it xs

/-- `ArraySortedList.index`: position of the first entry equal to the item;
the source raises when the item is absent, modelled as `none`. -/
def indexOfItem (l : List (ListItem α K)) (it : ListItem α K) : Option Nat :=
  match l with
  | [] => none
  | x :: xs => if x == it then some 0 else (indexOfItem xs it).map (· + 1)

/-- `ArraySortedList.delete_at_index`. -/
def delete_at_index (l : List (ListItem α K)) (i : Nat) : List (ListItem α K) :=
  l.eraseIdx i

end ArraySortedList

/-- The sorted list's ordering on integer keys (Python `<=` on ints). -/
def natLe (a b : Nat) : Bool := decide (a ≤ b)

/-- The sorted list's ordering on name keys: Python compares strings
lexicographically by code point, which is the lexicographic order on the
string's character list (it agrees with Mathlib's `String ≤` by
`String.le_iff_toList_le`). -/
def nameLe (a b : String) : Bool := decide (a.data ≤ b.data)

/-- `SetLayerStore` state: an `ArrayStack(1)` (modelled as a list with the top
at the head, holding at most one layer) plus the special-inversion flag. -/
structure SetLayerStore where
  stack : List Layer
  special_bool : Bool
deriving DecidableEq, Repr

/-- `SetLayerStore.erase`: if the stack is empty it returns
`self.stack.is_empty()` directly; otherwise it pops and then returns
`self.stack.is_empty()` of the post-pop stack. -/
def SetLayerStore.erase (s : SetLayerStore) : SetLayerStore × Bool :=
  if s.stack.isEmpty then
    (s, s.stack.isEmpty)
  else
    let s2 : SetLayerStore := ⟨s.stack.tail, s.special_bool⟩
    (s2, s2.stack.isEmpty)

/-- `SetLayerStore.add`: if the one-slot stack is full, pop then push the new
layer; otherwise just push.  Returns `True` on both paths. -/
def SetLayerStore.add (s : SetLayerStore) (layer : Layer) : SetLayerStore × Bool :=
  if s.stack.length == 1 then
    (⟨[layer], s.special_bool⟩, true)
  else
    (⟨layer :: s.stack, s.special_bool⟩, true)

/-- One entry of the SEQUENCE store: a layer keyed by its `index`. -/
abbrev SeqEntry := ListItem Layer Nat

/-- One entry of the name-keyed secondary view built by
`SequenceLayerStore.special`. -/
abbrev NameEntry := ListItem Layer String

namespace SequenceLayerStore

/-- `SequenceLayerStore.add`: build `ListItem(layer, layer.index)`, add it to
the sorted list, and return `__contains__(list_item)` of the resulting list. -/
def add (l : List SeqEntry) (layer : Layer) : List SeqEntry × Bool :=
  let it : SeqEntry := ⟨layer, layer.index⟩
  let l2 := ArraySortedList.add natLe l it
  (l2, ArraySortedList.containsItem l2 it)

/-- The body of the `for i in self.sorted_list` loop of
`SequenceLayerStore.erase`, run once per element of the original list: each
iteration removes the probe item when it is still contained.  (The iterator of
`ArraySortedList` is not among the sources; the loop is modelled as running
`length`-many iterations, which has the same effect.) -/
def eraseLoop (it : SeqEntry) : Nat → List SeqEntry → List SeqEntry
  | 0, l => l
  | n + 1, l =>
    eraseLoop it n
      (if ArraySortedList.containsItem l it then ArraySortedList.remove it l else l)

/-- `SequenceLayerStore.erase`: loop over the list removing the matching item,
then return `__contains__(erase_list_item)` of the resulting list. -/
def erase (l : List SeqEntry) (layer : Layer) : List SeqEntry × Bool :=
  let it : SeqEntry := ⟨layer, layer.index⟩
  let l2 := eraseLoop it l.length l
  (l2, ArraySortedList.containsItem l2 it)

/-- The first loop of `SequenceLayerStore.special`: every held entry is
re-keyed by its layer's `name` and added to a fresh `ArraySortedList`. -/
def buildNameView (l : List SeqEntry) : List NameEntry :=
  l.foldl (fun acc e => ArraySortedList.add nameLe acc ⟨e.value, e.value.name⟩) []

/-- `SequenceLayerStore.special`: on a non-empty store, build the name-sorted
secondary view, pick position `length / 2` when its length is odd and
`length / 2 - 1` when even, re-key the picked layer by its `index`, locate that
item in the primary list and delete it there.  The `none` results model the
exceptions `ArraySortedList` would raise on a failed lookup. -/
def special (l : List SeqEntry) : Option (List SeqEntry) :=
  if l.isEmpty then some l
  else
    match (buildNameView l).get?
        (if (buildNameView l).length % 2 == 1 then (buildNameView l).length / 2
         else (buildNameView l).length / 2 - 1) with
    | none => none
    | some item =>
      match ArraySortedList.indexOfItem l ⟨item.value, item.value.index⟩ with
      | none => none
      | some i => some (ArraySortedList.delete_at_index l i)

end SequenceLayerStore

/-- Modelled from the spec: Python truthiness of a queue element inside
`AdditiveLayerStore.special` (`if result_layer:`).  The queue only ever holds
`Layer` values (the `isinstance` check in `add` guarantees it), and a LayerKind
is a plain immutable value object (spec section 3), which is always truthy in
Python; so the test is constantly true. -/
def layerTruthy (_l : Layer) : Bool := true

namespace AdditiveLayerStore

/-- First loop of `AdditiveLayerStore.special`: `self.queue.length` times,
serve the front layer, push it on the auxiliary stack and re-append it to the
queue.  State is `(queue, stack)`; queue front and stack top are list heads. -/
def specialLoop1 : Nat → List Layer → List Layer → List Layer × List Layer
  | 0, q, s => (q, s)
  | _ + 1, [], s => ([], s)
  | n + 1, l :: rest, s => specialLoop1 n (rest ++ [l]) (l :: s)

/-- Second loop of `AdditiveLayerStore.special`: pop the auxiliary stack into
the result queue, appending an element only when it is truthy. -/
def specialLoop2 : List Layer → List Layer → List Layer
  | [], r => r
  | l :: s, r => specialLoop2 s (if layerTruthy l then r ++ [l] else r)

/-- `AdditiveLayerStore.special`: rotate the queue through the auxiliary
stack, then pop the stack into a fresh queue which replaces `self.queue`. -/
def special (q : List Layer) : List Layer :=
  specialLoop2 (specialLoop1 q.length q []).2 []

/-- The `while count < self.queue.length` loop of
`AdditiveLayerStore.get_color`: each iteration serves the front layer, applies
its transform to the running colour and re-appends the layer. -/
def getColorLoop (applyFn : Layer → Color → Int → Int → Int → Color)
    (t x y : Int) : Nat → List Layer → Color → Color × List Layer
  | 0, q, c => (c, q)
  | _ + 1, [], c => (c, [])
  | n + 1, l :: rest, c => getColorLoop applyFn t x y n (rest ++ [l]) (applyFn l c t x y)

/-- `AdditiveLayerStore.get_color`: raises `ValueError` (modelled `none`) when
`x < 0` or `y < 0`; otherwise runs the serve/apply/append loop `length` times
and returns the folded colour.  The second component is the queue left behind
by the call. -/
def get_color (applyFn : Layer → Color → Int → Int → Int → Color)
    (q : List Layer) (start : Color) (t x y : Int) : Option (Color × List Layer) :=
  if x < 0 then none
  else if y < 0 then none
  else some (getColorLoop applyFn t x y q.length q start)

end AdditiveLayerStore

/-- `action.PaintAction` (not among the sources) as consumed by undo/replay:
the only capabilities the trackers use are `undo_apply(grid)` and
`redo_apply(grid)`.  `G` is the grid state, `E` the exception type; an
application that raises is an `Except.error`. -/
structure PaintAction (G E : Type) where
  undo_apply : G → Except E G
  redo_apply : G → Except E G

/-- A PaintAction whose applications never raise, built from two plain grid
transformers (forward/redo first, backward/undo second). -/
def PaintAction.ofFns (G E : Type) (r u : G → G) : PaintAction G E :=
  ⟨fun g => Except.ok (u g), fun g => Except.ok (r g)⟩

/-- The `max_actions` bound of both trackers. -/
def MAX_ACTIONS : Nat := 10000

namespace ArrayStack

/-- `ArrayStack.is_full` for a stack of capacity `cap` (modelled as a list
with the top at the head). -/
def is_full {α : Type} (cap : Nat) (l : List α) : Bool := cap ≤ l.length

/-- Modelled from the spec: `ArrayStack.push` from
`data_structures.stack_adt` (not among the sources).  Spec section 5: capacity
ceilings are "enforced by silent rejection", so pushing onto a full stack
leaves it unchanged. -/
def push {α : Type} (cap : Nat) (l : List α) (a : α) : List α :=
  if is_full cap l then l else a :: l

end ArrayStack

/-- `UndoTracker` state: the `action_stack` of done actions and the
`redo_stack` of undone actions, both bounded by `MAX_ACTIONS`. -/
structure UndoTracker (G E : Type) where
  action_stack : List (PaintAction G E)
  redo_stack : List (PaintAction G E)

namespace UndoTracker

/-- The freshly constructed tracker: two empty stacks. -/
def initial (G E : Type) : UndoTracker G E := ⟨[], []⟩

/-- `UndoTracker.add_action`: if the action stack is full, do nothing;
otherwise push the action. -/
def add_action {G E : Type} (t : UndoTracker G E) (a : PaintAction G E) :
    UndoTracker G E :=
  if ArrayStack.is_full MAX_ACTIONS t.action_stack then t
  else ⟨ArrayStack.push MAX_ACTIONS t.action_stack a, t.redo_stack⟩

/-- `UndoTracker.undo`: on an empty action stack return `None` with the grid
untouched.  Otherwise peek the top action, run `undo_apply` on the grid (a
raise propagates before any stack is modified), then push the action onto the
redo stack, pop it from the action stack and return it. -/
def undo {G E : Type} (t : UndoTracker G E) (g : G) :
    UndoTracker G E × Except E (G × Option (PaintAction G E)) :=
  match t.action_stack with
  | [] => (t, Except.ok (g, none))
  | a :: rest =>
    match a.undo_apply g with
    | Except.error e => (t, Except.error e)
    | Except.ok g2 =>
      (⟨rest, ArrayStack.push MAX_ACTIONS t.redo_stack a⟩, Except.ok (g2, some a))

/-- `UndoTracker.redo`: on an empty redo stack return `None` with the grid
untouched.  Otherwise peek the top undone action, run `redo_apply` on the grid
(a raise propagates before any stack is modified), then push the action back
onto the action stack, pop it from the redo stack and return it. -/
def redo {G E : Type} (t : UndoTracker G E) (g : G) :
    UndoTracker G E × Except E (G × Option (PaintAction G E)) :=
  match t.redo_stack with
  | [] => (t, Except.ok (g, none))
  | a :: rest =>
    match a.redo_apply g with
    | Except.error e => (t, Except.error e)
    | Except.ok g2 =>
      (⟨ArrayStack.push MAX_ACTIONS t.action_stack a, rest⟩, Except.ok (g2, some a))

end UndoTracker

/-- One call made against an `UndoTracker` in an interleaving: an
`add_action`, an `undo` against some grid, or a `redo` against some grid. -/
inductive UndoOp (G E : Type) where
  | addAct : PaintAction G E → UndoOp G E
  | undoOp : G → UndoOp G E
  | redoOp : G → UndoOp G E

/-- Run a sequence of tracker calls, threading only the tracker state (the
grids and returned values are discarded). -/
def UndoTracker.runOps {G E : Type} : List (UndoOp G E) → UndoTracker G E → UndoTracker G E
  | [], t => t
  | UndoOp.addAct a :: ops, t => runOps ops (t.add_action a)
  | UndoOp.undoOp g :: ops, t => runOps ops (t.undo g).1
  | UndoOp.redoOp g :: ops, t => runOps ops (t.redo g).1

/-- `ReplayTracker` state: the two parallel bounded FIFOs (`replay_queue` of
actions and `bool_tracker` of is-undo flags), fronts at the list heads. -/
structure ReplayTracker (G E : Type) where
  replay_queue : List (PaintAction G E)
  bool_tracker : List Bool

namespace ReplayTracker

/-- `CircularQueue.is_full` for capacity `cap` (modelled from the spec: the
queue is a bounded FIFO; `data_structures.queue_adt` is not among the
sources). -/
def queueFull {α : Type} (cap : Nat) (l : List α) : Bool := cap ≤ l.length

/-- `ReplayTracker.add_action`: if the replay queue is full, do nothing;
otherwise append the action to the replay queue and the flag to the bool
tracker. -/
def add_action {G E : Type} (t : ReplayTracker G E) (a : PaintAction G E)
    (is_undo : Bool) : ReplayTracker G E :=
  if queueFull MAX_ACTIONS t.replay_queue then t
  else ⟨t.replay_queue ++ [a], t.bool_tracker ++ [is_undo]⟩

/-- `ReplayTracker.play_next_action`: if the replay queue is empty, clear it
and return `True` with the grid untouched.  Otherwise serve the flag, then the
action, apply `redo_apply` when the flag is false and `undo_apply` when true,
and return `False`.  A raise from the application propagates (the queues have
already been served); serving from an empty `bool_tracker` while the replay
queue is non-empty would raise inside the queue, modelled as `none`. -/
def play_next_action {G E : Type} (t : ReplayTracker G E) (g : G) :
    ReplayTracker G E × Option (Except E (G × Bool)) :=
  if t.replay_queue.isEmpty then
    (⟨[], t.bool_tracker⟩, some (Except.ok (g, true)))
  else
    match t.bool_tracker with
    | [] => (t, none)
    | b :: bs =>
      match t.replay_queue with
      | [] => (t, none)
      | a :: as =>
        match (if !b then a.redo_apply g else a.undo_apply g) with
        | Except.error e => (⟨as, bs⟩, some (Except.error e))
        | Except.ok g2 => (⟨as, bs⟩, some (Except.ok (g2, false)))

/-- Record a whole list of (action, is-undo) pairs on a fresh tracker. -/
def recordAll {G E : Type} (ps : List (PaintAction G E × Bool)) : ReplayTracker G E :=
  List.foldl (fun t p => add_action t p.1 p.2) ⟨[], []⟩ ps

/-- Drive `play_next_action` for `n` calls, collecting the grid and the list
of returned booleans.  The degenerate branch (a served application raising, or
the parallel queues desynchronising) stops the trace; it is never taken on the
trackers produced by `recordAll` over non-raising actions. -/
def playTrace {G E : Type} : Nat → ReplayTracker G E → G → G × List Bool
  | 0, _, g => (g, [])
  | n + 1, t, g =>
    match play_next_action t g with
    | (t2, some (Except.ok (g2, b))) =>
      let r := playTrace n t2 g2
      (r.1, b :: r.2)
    | _ => (g, [])

end ReplayTracker

/-- The three recognised draw styles, `Grid.DRAW_STYLE_OPTIONS`. -/
def DRAW_STYLE_OPTIONS : List String := ["SET", "ADD", "SEQUENCE"]

/-- Marker for which freshly constructed `LayerStore` a grid cell received. -/
inductive StoreKind where
  | set : StoreKind
  | add : StoreKind
  | sequence : StoreKind
deriving DecidableEq, Repr

/-- The cell value produced by the `if/elif/elif` chain of `Grid.__init__` for
one grid square: a store matching the draw style, or the `None` the
referential array was initialised with when no branch matches.  (Modelled from
the spec: `data_structures.referential_array.ArrayR` is not among the sources;
a fresh referential array holds empty slots.) -/
def cellFor (style : String) : Option StoreKind :=
  if style == "SET" then some StoreKind.set
  else if style == "ADD" then some StoreKind.add
  else if style == "SEQUENCE" then some StoreKind.sequence
  else none

/-- The `Grid` state after construction: the draw style, the dimensions, the
brush size (initialised to `DEFAULT_BRUSH_SIZE = 2`) and the `x` rows of `y`
cells each. -/
structure GridState where
  draw_style : String
  x : Int
  y : Int
  brush_size : Nat
  grid : List (List (Option StoreKind))
deriving Repr

/-- `Grid.__init__`: raises `ValueError` when `x < 0` or `y < 0`; otherwise
builds the `x × y` grid whose every cell holds `cellFor draw_style`. -/
def Grid.init (draw_style : String) (x y : Int) : Except String GridState :=
  if x < 0 then Except.error "x should be greater than or equal to 0"
  else if y < 0 then Except.error "y should be greater than or equal to 0"
  else
    Except.ok
      ⟨draw_style, x, y, 2,
       List.replicate x.toNat (List.replicate y.toNat (cellFor draw_style))⟩

/-- A concrete non-raising action on a `Nat` grid, for witnesses. -/
def natAction : PaintAction Nat Nat := PaintAction.ofFns Nat Nat id id

/-- A concrete action whose applications always raise, for witnesses. -/
def failingAction : PaintAction Nat Nat :=
  ⟨fun _ => Except.error 7, fun _ => Except.error 7⟩

/-- A concrete tracker whose done stack is at capacity, for witnesses. -/
def fullTracker : UndoTracker Nat Nat :=
  ⟨List.replicate MAX_ACTIONS natAction, []⟩

/-- The spec section 8 scenario for the SEQUENCE cell, for witnesses: four
applied layers named `"b","a","d","c"`, keyed by their indices. -/
def seqWitnessStore : List SeqEntry :=
  [⟨⟨0, "b"⟩, 0⟩, ⟨⟨1, "a"⟩, 1⟩, ⟨⟨2, "d"⟩, 2⟩, ⟨⟨3, "c"⟩, 3⟩]

/-- Concrete replay material for witnesses: the spec section 8 scenario of two
forward recordings followed by one undo recording, as (redo transformer, undo
transformer, is-undo flag) triples over a `Nat` grid. -/
def replayWitnessTriples : List ((Nat → Nat) × (Nat → Nat) × Bool) :=
  [((· + 1), (· - 1), false), ((· * 2), (· / 2), false), ((· + 3), (· - 3), true)]

/-! ## Helper lemmas -/

/-- Pushing never grows a stack beyond its capacity. -/
theorem ArrayStack.push_length_le {α : Type} (cap : Nat) (l : List α) (a : α)
    (h : l.length ≤ cap) : (ArrayStack.push cap l a).length ≤ cap := by
  rw [ArrayStack.push]
  by_cases hf : ArrayStack.is_full cap l = true
  · rw [if_pos hf]
    exact h
  · rw [if_neg hf]
    have : ¬ cap ≤ l.length := by
      simpa [ArrayStack.is_full] using hf
    simp only [List.length_cons]
    omega

/-- Both stacks of an `UndoTracker` stay within `MAX_ACTIONS` across any
sequence of `add_action` / `undo` / `redo` calls. -/
theorem UndoTracker.runOps_length_le {G E : Type} :
    ∀ (ops : List (UndoOp G E)) (t : UndoTracker G E),
      t.action_stack.length ≤ MAX_ACTIONS →
      t.redo_stack.length ≤ MAX_ACTIONS →
      (UndoTracker.runOps ops t).action_stack.length ≤ MAX_ACTIONS ∧
        (UndoTracker.runOps ops t).redo_stack.length ≤ MAX_ACTIONS := by
  intro ops
  induction ops with
  | nil =>
    intro t h1 h2
    exact ⟨h1, h2⟩
  | cons op ops ih =>
    intro t h1 h2
    cases op with
    | addAct a =>
      rw [UndoTracker.runOps]
      apply ih
      · rw [UndoTracker.add_action]
        by_cases hf : ArrayStack.is_full MAX_ACTIONS t.action_stack = true
        · rw [if_pos hf]
          exact h1
        · rw [if_neg hf]
          exact ArrayStack.push_length_le MAX_ACTIONS t.action_stack a h1
      · rw [UndoTracker.add_action]
        by_cases hf : ArrayStack.is_full MAX_ACTIONS t.action_stack = true
        · rw [if_pos hf]
          exact h2
        · rw [if_neg hf]
          exact h2
    | undoOp g =>
      rw [UndoTracker.runOps]
      apply ih
      all_goals
        rcases ht : t.action_stack with _ | ⟨a, rest⟩ <;>
          simp only [UndoTracker.undo, ht]
      · simp
      · rcases ha : a.undo_apply g with e | g2 <;> simp only
        · exact h1
        · rw [ht] at h1
          simp only [List.length_cons] at h1
          omega
      · exact h2
      · rcases ha : a.undo_apply g with e | g2 <;> simp only
        · exact h2
        · exact ArrayStack.push_length_le MAX_ACTIONS t.redo_stack a h2
    | redoOp g =>
      rw [UndoTracker.runOps]
      apply ih
      all_goals
        rcases ht : t.redo_stack with _ | ⟨a, rest⟩ <;>
          simp only [UndoTracker.redo, ht]
      · exact h1
      · rcases ha : a.redo_apply g with e | g2 <;> simp only
        · exact h1
        · exact ArrayStack.push_length_le MAX_ACTIONS t.action_stack a h1
      · simp
      · rcases ha : a.redo_apply g with e | g2 <;> simp only
        · exact h2
        · rw [ht] at h2
          simp only [List.length_cons] at h2
          omega

/-- The rotation loop of `AdditiveLayerStore.get_color`, run for exactly the
length of the first block, folds the transform over that block and rotates it
to the back of the queue. -/
theorem AdditiveLayerStore.getColorLoop_rotate
    (applyFn : Layer → Color → Int → Int → Int → Color) (t x y : Int) :
    ∀ (a b : List Layer) (c : Color),
      AdditiveLayerStore.getColorLoop applyFn t x y a.length (a ++ b) c =
        (a.foldl (fun cc l => applyFn l cc t x y) c, b ++ a) := by
  intro a
  induction a with
  | nil =>
    intro b c
    simp [AdditiveLayerStore.getColorLoop]
  | cons l a ih =>
    intro b c
    show AdditiveLayerStore.getColorLoop applyFn t x y (a.length + 1) (l :: (a ++ b)) c = _
    rw [AdditiveLayerStore.getColorLoop]
    rw [List.append_assoc a b [l]]
    rw [ih (b ++ [l]) (applyFn l c t x y)]
    simp

/-- The first loop of `AdditiveLayerStore.special`, run for exactly the length
of the first block, restores a rotated queue and stacks the block reversed. -/
theorem AdditiveLayerStore.specialLoop1_rotate :
    ∀ (a b s : List Layer),
      AdditiveLayerStore.specialLoop1 a.length (a ++ b) s = (b ++ a, a.reverse ++ s) := by
  intro a
  induction a with
  | nil =>
    intro b s
    simp [AdditiveLayerStore.specialLoop1]
  | cons l a ih =>
    intro b s
    show AdditiveLayerStore.specialLoop1 (a.length + 1) (l :: (a ++ b)) s = _
    rw [AdditiveLayerStore.specialLoop1]
    rw [List.append_assoc a b [l]]
    rw [ih (b ++ [l]) (l :: s)]
    simp

/-- The second loop of `AdditiveLayerStore.special` empties the stack onto the
back of the result queue (every layer is truthy). -/
theorem AdditiveLayerStore.specialLoop2_drain :
    ∀ (s r : List Layer), AdditiveLayerStore.specialLoop2 s r = r ++ s := by
  intro s
  induction s with
  | nil =>
    intro r
    simp [AdditiveLayerStore.specialLoop2]
  | cons l s ih =>
    intro r
    rw [AdditiveLayerStore.specialLoop2]
    simp [layerTruthy, ih]

/-- `AdditiveLayerStore.special` computes the reverse of the held sequence. -/
theorem AdditiveLayerStore.special_eq_reverse (q : List Layer) :
    AdditiveLayerStore.special q = q.reverse := by
  unfold AdditiveLayerStore.special
  have h1 := AdditiveLayerStore.specialLoop1_rotate q [] []
  simp only [List.append_nil] at h1
  rw [h1]
  rw [AdditiveLayerStore.specialLoop2_drain]
  simp

/-- Sorted insertion yields a permutation of consing the new item. -/
theorem ArraySortedList.insertSorted_perm {α K : Type} [DecidableEq α]
    [DecidableEq K] (le : K → K → Bool) (it : ListItem α K) :
    ∀ l : List (ListItem α K),
      (ArraySortedList.insertSorted le it l).Perm (it :: l) := by
  intro l
  induction l with
  | nil => exact List.Perm.refl _
  | cons x xs ih =>
    rw [ArraySortedList.insertSorted]
    by_cases h : le it.key x.key = true
    · rw [if_pos h]
    · rw [if_neg h]
      exact (List.Perm.cons x ih).trans (List.Perm.swap it x xs)

/-- Sorted insertion keeps the list pairwise ordered by a total, transitive
key comparison. -/
theorem ArraySortedList.insertSorted_pairwise {α K : Type} [DecidableEq α]
    [DecidableEq K] (le : K → K → Bool)
    (htotal : ∀ a b : K, le a b ≠ true → le b a = true)
    (htrans : ∀ a b c : K, le a b = true → le b c = true → le a c = true)
    (it : ListItem α K) :
    ∀ l : List (ListItem α K),
      l.Pairwise (fun a b => le a.key b.key = true) →
      (ArraySortedList.insertSorted le it l).Pairwise
        (fun a b => le a.key b.key = true) := by
  intro l
  induction l with
  | nil =>
    intro _
    simp [ArraySortedList.insertSorted]
  | cons x xs ih =>
    intro hp
    rw [List.pairwise_cons] at hp
    rw [ArraySortedList.insertSorted]
    by_cases h : le it.key x.key = true
    · rw [if_pos h]
      rw [List.pairwise_cons]
      constructor
      · intro y hy
        rcases List.mem_cons.mp hy with hy | hy
        · rw [hy]
          exact h
        · exact htrans it.key x.key y.key h (hp.1 y hy)
      · rw [List.pairwise_cons]
        exact hp
    · rw [if_neg h]
      rw [List.pairwise_cons]
      constructor
      · intro y hy
        have hy2 := (ArraySortedList.insertSorted_perm le it xs).mem_iff.mp hy
        rcases List.mem_cons.mp hy2 with hy2 | hy2
        · rw [hy2]
          exact htotal it.key x.key h
        · exact hp.1 y hy2
      · exact ih hp.2

/-- `nameLe` is total. -/
theorem nameLe_total (a b : String) (h : nameLe a b ≠ true) : nameLe b a = true := by
  simp only [nameLe, ne_eq, decide_eq_true_eq] at h ⊢
  exact le_of_not_le h

/-- `nameLe` is transitive. -/
theorem nameLe_trans (a b c : String) (hab : nameLe a b = true)
    (hbc : nameLe b c = true) : nameLe a c = true := by
  simp only [nameLe, decide_eq_true_eq] at hab hbc ⊢
  exact le_trans hab hbc

/-- Recording pairs onto a tracker with enough spare capacity appends them to
both parallel queues. -/
theorem ReplayTracker.recordAll_eq (G E : Type) :
    ∀ (ps : List (PaintAction G E × Bool)) (t : ReplayTracker G E),
      t.replay_queue.length + ps.length ≤ MAX_ACTIONS →
      List.foldl (fun tr p => ReplayTracker.add_action tr p.1 p.2) t ps =
        ⟨t.replay_queue ++ ps.map Prod.fst, t.bool_tracker ++ ps.map Prod.snd⟩ := by
  intro ps
  induction ps with
  | nil =>
    intro t _
    obtain ⟨q, b⟩ := t
    simp
  | cons p ps ih =>
    intro t hlen
    rw [List.foldl_cons]
    have hnf : ReplayTracker.queueFull MAX_ACTIONS t.replay_queue ≠ true := by
      simp only [List.length_cons] at hlen
      simp only [ReplayTracker.queueFull, ne_eq, decide_eq_true_eq]
      omega
    rw [ReplayTracker.add_action, if_neg hnf]
    rw [ih ⟨t.replay_queue ++ [p.1], t.bool_tracker ++ [p.2]⟩
      (by
        simp only [List.length_cons] at hlen
        simp only [List.length_append, List.length_singleton]
        omega)]
    simp

/-- Driving `play_next_action` over a tracker holding `k` recorded non-raising
(action, flag) pairs serves them oldest first, applies the redo transformer
when the flag is false and the undo transformer when it is true, and yields
`k` times `false` followed by one `true`. -/
theorem ReplayTracker.playTrace_serves (G E : Type) :
    ∀ (triples : List ((G → G) × (G → G) × Bool)) (g : G),
      ReplayTracker.playTrace (triples.length + 1)
          (⟨triples.map (fun p => PaintAction.ofFns G E p.1 p.2.1),
            triples.map (fun p => p.2.2)⟩ : ReplayTracker G E) g =
        (triples.foldl (fun gg p => if p.2.2 then p.2.1 gg else p.1 gg) g,
         (triples.map fun _ => false) ++ [true]) := by
  intro triples
  induction triples with
  | nil =>
    intro g
    simp [ReplayTracker.playTrace, ReplayTracker.play_next_action]
  | cons p rest ih =>
    intro g
    rw [List.length_cons, ReplayTracker.playTrace]
    have hstep : ReplayTracker.play_next_action
        (⟨(p :: rest).map (fun p => PaintAction.ofFns G E p.1 p.2.1),
          (p :: rest).map (fun p => p.2.2)⟩ : ReplayTracker G E) g =
        (⟨rest.map (fun p => PaintAction.ofFns G E p.1 p.2.1),
          rest.map (fun p => p.2.2)⟩,
         some (Except.ok (if p.2.2 then p.2.1 g else p.1 g, false))) := by
      cases hb : p.2.2 <;>
        simp [ReplayTracker.play_next_action, PaintAction.ofFns, hb]
    rw [hstep]
    simp only
    rw [ih (if p.2.2 then p.2.1 g else p.1 g)]
    simp

/-- When the item is genuinely in the list, `indexOfItem` finds a position,
and deleting at that position is exactly `remove`. -/
theorem ArraySortedList.indexOfItem_of_mem {α K : Type} [DecidableEq α]
    [DecidableEq K] [LinearOrder K] (it : ListItem α K) :
    ∀ l : List (ListItem α K), it ∈ l →
      ∃ i, ArraySortedList.indexOfItem l it = some i ∧
        l.eraseIdx i = ArraySortedList.remove it l := by
  intro l
  induction l with
  | nil =>
    intro h
    exact absurd h (List.not_mem_nil it)
  | cons x xs ih =>
    intro h
    by_cases hx : x = it
    · refine ⟨0, ?_, ?_⟩
      · rw [ArraySortedList.indexOfItem, if_pos (by simp [hx])]
      · rw [List.eraseIdx_cons_zero, ArraySortedList.remove, if_pos (by simp [hx])]
    · have hmem : it ∈ xs := by
        rcases List.mem_cons.mp h with h | h
        · exact absurd h.symm hx
        · exact h
      obtain ⟨j, hj, he⟩ := ih hmem
      refine ⟨j + 1, ?_, ?_⟩
      · rw [ArraySortedList.indexOfItem, if_neg (by simp [hx]), hj]
        rfl
      · rw [List.eraseIdx_cons_succ, ArraySortedList.remove, if_neg (by simp [hx]), he]

/-- The name-view construction loop of `SequenceLayerStore.special`: folding
key-deduplicating sorted insertion over entries whose names are fresh for the
accumulator and pairwise distinct yields a permutation of the accumulator plus
the name-keyed entries, kept pairwise sorted by name. -/
theorem SequenceLayerStore.buildNameView_general :
    ∀ (l : List SeqEntry) (acc : List NameEntry),
      acc.Pairwise (fun a b => nameLe a.key b.key = true) →
      (∀ e ∈ l, ∀ x ∈ acc, x.key ≠ e.value.name) →
      (l.map fun e => e.value.name).Nodup →
      (List.foldl (fun acc e => ArraySortedList.add nameLe acc ⟨e.value, e.value.name⟩) acc l).Perm
          (acc ++ l.map fun e => (⟨e.value, e.value.name⟩ : NameEntry)) ∧
        (List.foldl (fun acc e => ArraySortedList.add nameLe acc ⟨e.value, e.value.name⟩) acc l).Pairwise
          (fun a b => nameLe a.key b.key = true) := by
  intro l
  induction l with
  | nil =>
    intro acc hpair _ _
    constructor
    · simp
    · exact hpair
  | cons e l ih =>
    intro acc hpair hfresh hnodup
    have hkeyfalse : ArraySortedList.hasKey acc
        ((⟨e.value, e.value.name⟩ : NameEntry).key) ≠ true := by
      intro hx
      simp only [ArraySortedList.hasKey, List.any_eq_true, beq_iff_eq] at hx
      obtain ⟨x, hxmem, hxk⟩ := hx
      exact hfresh e (List.mem_cons_self e l) x hxmem hxk
    have hstep : ArraySortedList.add nameLe acc ⟨e.value, e.value.name⟩ =
        ArraySortedList.insertSorted nameLe ⟨e.value, e.value.name⟩ acc := by
      rw [ArraySortedList.add, if_neg hkeyfalse]
    rw [List.foldl_cons, hstep]
    have hperm2 := ArraySortedList.insertSorted_perm nameLe
      (⟨e.value, e.value.name⟩ : NameEntry) acc
    have hpair2 := ArraySortedList.insertSorted_pairwise nameLe nameLe_total
      nameLe_trans (⟨e.value, e.value.name⟩ : NameEntry) acc hpair
    have hnodup2 : (l.map fun e2 => e2.value.name).Nodup := by
      rw [List.map_cons, List.nodup_cons] at hnodup
      exact hnodup.2
    have hnotmem : e.value.name ∉ l.map fun e2 => e2.value.name := by
      rw [List.map_cons, List.nodup_cons] at hnodup
      exact hnodup.1
    have hfresh2 : ∀ e2 ∈ l, ∀ x ∈ ArraySortedList.insertSorted nameLe
        (⟨e.value, e.value.name⟩ : NameEntry) acc, x.key ≠ e2.value.name := by
      intro e2 he2 x hx
      rcases List.mem_cons.mp (hperm2.mem_iff.mp hx) with hx2 | hx2
      · rw [hx2]
        intro hk
        have hk2 : e.value.name = e2.value.name := hk
        exact hnotmem (by rw [hk2]; exact List.mem_map_of_mem _ he2)
      · exact hfresh e2 (List.mem_cons_of_mem e he2) x hx2
    obtain ⟨ihperm, ihpair⟩ := ih
      (ArraySortedList.insertSorted nameLe ⟨e.value, e.value.name⟩ acc)
      hpair2 hfresh2 hnodup2
    refine ⟨?_, ihpair⟩
    refine ihperm.trans ?_
    refine ((hperm2.append_right (l.map fun e2 =>
      (⟨e2.value, e2.value.name⟩ : NameEntry))).trans ?_)
    rw [List.map_cons, List.cons_append]
    exact List.perm_middle.symm

/-- The secondary view built by `SequenceLayerStore.special` on distinctly
named entries: a name-sorted permutation of the held layers, one entry per
held entry. -/
theorem SequenceLayerStore.buildNameView_spec (l : List SeqEntry)
    (hnodup : (l.map fun e => e.value.name).Nodup) :
    (SequenceLayerStore.buildNameView l).Perm
        (l.map fun e => (⟨e.value, e.value.name⟩ : NameEntry)) ∧
      (SequenceLayerStore.buildNameView l).Pairwise (fun a b => nameLe a.key b.key = true) ∧
      (SequenceLayerStore.buildNameView l).length = l.length := by
  obtain ⟨hperm, hpair⟩ := SequenceLayerStore.buildNameView_general l []
    (by simp) (by simp) hnodup
  rw [List.nil_append] at hperm
  simp only [SequenceLayerStore.buildNameView]
  refine ⟨hperm, hpair, ?_⟩
  rw [hperm.length_eq, List.length_map]

/-! ## Claim theorems -/

/-- C2: the claim says `SetLayerStore.erase` returns "changed" iff a layer was
present, in particular `False` on an empty cell; but the source returns
`self.stack.is_empty()`, which on an empty cell is `True` while nothing
changed — contradicting the method's own docstring ("True if the LayerStore
was changed, false if not"). -/
theorem setLayerStore_erase_empty_reports_changed :
    SetLayerStore.erase ⟨[], false⟩ = (⟨[], false⟩, true) := rfl

/-- C3: the claim says `SequenceLayerStore.erase` returns `True` exactly when
a matching entry was removed; but the source returns `__contains__` of the
list *after* removal, so erasing the single held layer mutates the store yet
returns `False` — contradicting the method's own docstring. -/
theorem sequenceLayerStore_erase_mutates_but_reports_false :
    SequenceLayerStore.erase [⟨⟨0, "a"⟩, 0⟩] ⟨0, "a"⟩ = ([], false) := by decide

/-- C5: `AdditiveLayerStore.special` reverses the current order of the held
sequence, preserving exactly the multiset of elements (nothing duplicated or
dropped), so applying it twice restores the original order. -/
theorem additive_special_reverses (q : List Layer) :
    AdditiveLayerStore.special q = q.reverse ∧
      AdditiveLayerStore.special (AdditiveLayerStore.special q) = q ∧
      (AdditiveLayerStore.special q).Perm q := by
  refine ⟨AdditiveLayerStore.special_eq_reverse q, ?_, ?_⟩
  · rw [AdditiveLayerStore.special_eq_reverse, AdditiveLayerStore.special_eq_reverse]
    exact List.reverse_reverse q
  · rw [AdditiveLayerStore.special_eq_reverse]
    exact List.reverse_perm q

/-- C1: on the SEQUENCE cell, adding a layer whose `index` is already present
leaves the store unchanged, and adding the same layer twice leaves exactly one
entry carrying that layer's index (no duplicate is ever created). -/
theorem sequence_add_existing_index_noop :
    (∀ (l : List SeqEntry) (layer : Layer),
        (∃ e ∈ l, e.key = layer.index) →
        (SequenceLayerStore.add l layer).1 = l) ∧
    (∀ (l : List SeqEntry) (layer : Layer),
        l.countP (fun e => e.key == layer.index) ≤ 1 →
        ((SequenceLayerStore.add (SequenceLayerStore.add l layer).1 layer).1.countP
            (fun e => e.key == layer.index)) = 1) := by
  have hkey : ∀ (l : List SeqEntry) (layer : Layer),
      ArraySortedList.hasKey l ((⟨layer, layer.index⟩ : SeqEntry).key) = true ↔
        ∃ e ∈ l, e.key = layer.index := by
    intro l layer
    simp [ArraySortedList.hasKey]
  constructor
  · intro l layer hex
    show (ArraySortedList.add natLe l ⟨layer, layer.index⟩) = l
    rw [ArraySortedList.add, if_pos ((hkey l layer).mpr hex)]
  · intro l layer hcount
    show ((SequenceLayerStore.add
        (ArraySortedList.add natLe l ⟨layer, layer.index⟩) layer).1.countP
        (fun e => e.key == layer.index)) = 1
    by_cases h : ArraySortedList.hasKey l ((⟨layer, layer.index⟩ : SeqEntry).key) = true
    · rw [ArraySortedList.add, if_pos h]
      show (ArraySortedList.add natLe l ⟨layer, layer.index⟩).countP
          (fun e => e.key == layer.index) = 1
      rw [ArraySortedList.add, if_pos h]
      have hpos : 0 < l.countP (fun e => e.key == layer.index) := by
        rw [List.countP_pos_iff]
        obtain ⟨e, he, hk⟩ := (hkey l layer).mp h
        exact ⟨e, he, by simp [hk]⟩
      exact Nat.le_antisymm hcount hpos
    · rw [ArraySortedList.add, if_neg h]
      have hperm := ArraySortedList.insertSorted_perm natLe (⟨layer, layer.index⟩ : SeqEntry) l
      have hz : l.countP (fun e => e.key == layer.index) = 0 := by
        rw [List.countP_eq_zero]
        intro a ha hk
        apply h
        rw [hkey l layer]
        exact ⟨a, ha, by simpa using hk⟩
      have hone : (ArraySortedList.insertSorted natLe (⟨layer, layer.index⟩ : SeqEntry) l).countP
          (fun e => e.key == layer.index) = 1 := by
        rw [hperm.countP_eq]
        rw [List.countP_cons]
        simp [hz]
      have hmem : (⟨layer, layer.index⟩ : SeqEntry) ∈
          ArraySortedList.insertSorted natLe (⟨layer, layer.index⟩ : SeqEntry) l :=
        hperm.mem_iff.mpr (List.mem_cons_self _ _)
      show (ArraySortedList.add natLe
          (ArraySortedList.insertSorted natLe (⟨layer, layer.index⟩ : SeqEntry) l)
          ⟨layer, layer.index⟩).countP (fun e => e.key == layer.index) = 1
      rw [ArraySortedList.add, if_pos ?hfull]
      case hfull =>
        rw [hkey]
        exact ⟨⟨layer, layer.index⟩, hmem, rfl⟩
      exact hone

/-- C1 witness: a store holding the layer with index 0 absorbs a second add of
that layer, and double-adding onto the empty store leaves one entry. -/
theorem sequence_add_existing_index_noop_witness :
    (SequenceLayerStore.add [⟨⟨0, "a"⟩, 0⟩] ⟨0, "a"⟩).1 = [⟨⟨0, "a"⟩, 0⟩] ∧
      ((SequenceLayerStore.add (SequenceLayerStore.add [] ⟨0, "a"⟩).1 ⟨0, "a"⟩).1.countP
          (fun e => e.key == (0 : Nat))) = 1 := by
  constructor
  · exact sequence_add_existing_index_noop.1 [⟨⟨0, "a"⟩, 0⟩] ⟨0, "a"⟩ (by decide)
  · exact sequence_add_existing_index_noop.2 [] ⟨0, "a"⟩ (by decide)

/-- C4: capacity and absence conditions never raise on the undo tracker:
`add_action` on a full done stack silently drops the action leaving the stored
entries unchanged, `undo` and `redo` with nothing pending return `None` with
the tracker and grid untouched, and under every interleaving of the three
calls both stacks stay within their `10000` bound (every operation is a total
function of the state — capacity is enforced by silent rejection, never by an
exception). -/
theorem undo_tracker_capacity_absence_safe :
    (∀ (G E : Type) (t : UndoTracker G E) (a : PaintAction G E),
        t.action_stack.length = MAX_ACTIONS → t.add_action a = t) ∧
    (∀ (G E : Type) (t : UndoTracker G E) (g : G),
        t.action_stack = [] → t.undo g = (t, Except.ok (g, none))) ∧
    (∀ (G E : Type) (t : UndoTracker G E) (g : G),
        t.redo_stack = [] → t.redo g = (t, Except.ok (g, none))) ∧
    (∀ (G E : Type) (ops : List (UndoOp G E)),
        (UndoTracker.runOps ops (UndoTracker.initial G E)).action_stack.length ≤
            MAX_ACTIONS ∧
          (UndoTracker.runOps ops (UndoTracker.initial G E)).redo_stack.length ≤
            MAX_ACTIONS) := by
  refine ⟨?_, ?_, ?_, ?_⟩
  · intro G E t a hfull
    rw [UndoTracker.add_action, if_pos]
    rw [ArrayStack.is_full]
    simp [hfull]
  · intro G E t g hempty
    rw [UndoTracker.undo, hempty]
  · intro G E t g hempty
    rw [UndoTracker.redo, hempty]
  · intro G E ops
    exact UndoTracker.runOps_length_le ops (UndoTracker.initial G E)
      (by simp [UndoTracker.initial]) (by simp [UndoTracker.initial])

/-- C4 witness: a tracker holding 10000 actions drops an 11th-style add
unchanged, and the fresh tracker's undo and redo return `None`; a short
interleaving keeps both stacks within bound. -/
theorem undo_tracker_capacity_absence_safe_witness :
    fullTracker.add_action natAction = fullTracker ∧
      (UndoTracker.initial Nat Nat).undo 0 =
        (UndoTracker.initial Nat Nat, Except.ok (0, none)) ∧
      (UndoTracker.initial Nat Nat).redo 0 =
        (UndoTracker.initial Nat Nat, Except.ok (0, none)) ∧
      ((UndoTracker.runOps [UndoOp.addAct natAction, UndoOp.undoOp 0, UndoOp.redoOp 0]
            (UndoTracker.initial Nat Nat)).action_stack.length ≤ MAX_ACTIONS ∧
        (UndoTracker.runOps [UndoOp.addAct natAction, UndoOp.undoOp 0, UndoOp.redoOp 0]
            (UndoTracker.initial Nat Nat)).redo_stack.length ≤ MAX_ACTIONS) := by
  refine ⟨?_, ?_, ?_, ?_⟩
  · exact undo_tracker_capacity_absence_safe.1 Nat Nat fullTracker natAction
      (by simp [fullTracker])
  · exact undo_tracker_capacity_absence_safe.2.1 Nat Nat (UndoTracker.initial Nat Nat) 0 rfl
  · exact undo_tracker_capacity_absence_safe.2.2.1 Nat Nat (UndoTracker.initial Nat Nat) 0 rfl
  · exact undo_tracker_capacity_absence_safe.2.2.2 Nat Nat
      [UndoOp.addAct natAction, UndoOp.undoOp 0, UndoOp.redoOp 0]

/-- C10: `undo` and `redo` run the action's application on the grid before
touching either stack, so when the application raises, the exception
propagates with both the done stack and the undone stack exactly as they were
before the call. -/
theorem undo_redo_atomic_on_error :
    (∀ (G E : Type) (t : UndoTracker G E) (g : G) (a : PaintAction G E)
        (rest : List (PaintAction G E)) (e : E),
        t.action_stack = a :: rest → a.undo_apply g = Except.error e →
        t.undo g = (t, Except.error e)) ∧
    (∀ (G E : Type) (t : UndoTracker G E) (g : G) (a : PaintAction G E)
        (rest : List (PaintAction G E)) (e : E),
        t.redo_stack = a :: rest → a.redo_apply g = Except.error e →
        t.redo g = (t, Except.error e)) := by
  constructor
  · intro G E t g a rest e ht ha
    obtain ⟨as, rs⟩ := t
    simp only at ht
    subst ht
    simp [UndoTracker.undo, ha]
  · intro G E t g a rest e ht ha
    obtain ⟨as, rs⟩ := t
    simp only at ht
    subst ht
    simp [UndoTracker.redo, ha]

/-- C10 witness: a raising action leaves a one-action tracker untouched on
both the undo and the redo path. -/
theorem undo_redo_atomic_on_error_witness :
    (UndoTracker.undo ⟨[failingAction], []⟩ 0) =
        ((⟨[failingAction], []⟩ : UndoTracker Nat Nat), Except.error 7) ∧
      (UndoTracker.redo ⟨[], [failingAction]⟩ 0) =
        ((⟨[], [failingAction]⟩ : UndoTracker Nat Nat), Except.error 7) := by
  constructor
  · exact undo_redo_atomic_on_error.1 Nat Nat ⟨[failingAction], []⟩ 0 failingAction [] 7
      rfl rfl
  · exact undo_redo_atomic_on_error.2 Nat Nat ⟨[], [failingAction]⟩ 0 failingAction [] 7
      rfl rfl

/-- C7: recording `k ≤ 10000` (action, direction) pairs and then driving
`play_next_action` serves the pairs oldest first, applying the action's redo
transformer when the recorded flag is false and its undo transformer when it
is true, returning `False` for each of the `k` served pairs and `True` once
the log is empty; the final grid is the left fold of the selected
transformers. -/
theorem replay_serves_oldest_first :
    ∀ (G E : Type) (triples : List ((G → G) × (G → G) × Bool)) (g : G),
      triples.length ≤ MAX_ACTIONS →
      ReplayTracker.playTrace (triples.length + 1)
          (ReplayTracker.recordAll
            (triples.map fun p => (PaintAction.ofFns G E p.1 p.2.1, p.2.2))) g =
        (triples.foldl (fun gg p => if p.2.2 then p.2.1 gg else p.1 gg) g,
         (triples.map fun _ => false) ++ [true]) := by
  intro G E triples g hlen
  rw [ReplayTracker.recordAll]
  rw [ReplayTracker.recordAll_eq G E
    (triples.map fun p => (PaintAction.ofFns G E p.1 p.2.1, p.2.2)) ⟨[], []⟩
    (by simpa using hlen)]
  simp only [List.nil_append, List.map_map]
  have hfst : (triples.map fun p =>
      Prod.fst ((fun p => (PaintAction.ofFns G E p.1 p.2.1, p.2.2)) p)) =
      triples.map fun p => PaintAction.ofFns G E p.1 p.2.1 := by
    simp
  have hsnd : (triples.map fun p =>
      Prod.snd ((fun p => (PaintAction.ofFns G E p.1 p.2.1, p.2.2)) p)) =
      triples.map fun p => p.2.2 := by
    simp
  rw [Function.comp_def, Function.comp_def, hfst, hsnd]
  exact ReplayTracker.playTrace_serves G E triples g

/-- C7 witness: the spec section 8 scenario — three recorded pairs, the first
two forward and the third an undo — yields the trace `false, false, false,
true` and applies the transformers oldest first on grid `0` (add 1, then
double, then the undo transformer subtract 3). -/
theorem replay_serves_oldest_first_witness :
    ReplayTracker.playTrace (replayWitnessTriples.length + 1)
        (ReplayTracker.recordAll
          (replayWitnessTriples.map
            fun p => (PaintAction.ofFns Nat Nat p.1 p.2.1, p.2.2))) 0 =
      (0, [false, false, false, true]) := by
  have h := replay_serves_oldest_first Nat Nat replayWitnessTriples 0 (by decide)
  rw [h]
  rfl

/-- C9: `Grid.__init__` raises `ValueError` exactly when `x < 0` or `y < 0`;
the draw style is never validated, so construction with any string outside
`DRAW_STYLE_OPTIONS` and non-negative dimensions succeeds and leaves every
grid cell unset (`none`) instead of holding a layer store. -/
theorem grid_init_validates_only_dimensions :
    (∀ (style : String) (x y : Int), x < 0 ∨ y < 0 →
        ∃ e, Grid.init style x y = Except.error e) ∧
    (∀ (style : String) (x y : Int), 0 ≤ x → 0 ≤ y →
        ∃ g, Grid.init style x y = Except.ok g) ∧
    (∀ (style : String) (x y : Int), style ∉ DRAW_STYLE_OPTIONS → 0 ≤ x → 0 ≤ y →
        ∃ g, Grid.init style x y = Except.ok g ∧
          ∀ row ∈ g.grid, ∀ c ∈ row, c = none) := by
  refine ⟨?_, ?_, ?_⟩
  · intro style x y hxy
    rw [Grid.init]
    by_cases hx : x < 0
    · rw [if_pos hx]
      exact ⟨_, rfl⟩
    · rw [if_neg hx, if_pos (by omega)]
      exact ⟨_, rfl⟩
  · intro style x y hx hy
    rw [Grid.init, if_neg (by omega), if_neg (by omega)]
    exact ⟨_, rfl⟩
  · intro style x y hstyle hx hy
    rw [Grid.init, if_neg (by omega), if_neg (by omega)]
    refine ⟨_, rfl, ?_⟩
    intro row hrow c hc
    have hrow2 := List.eq_of_mem_replicate hrow
    rw [hrow2] at hc
    have hc2 := List.eq_of_mem_replicate hc
    rw [hc2]
    simp only [DRAW_STYLE_OPTIONS, List.mem_cons, List.mem_singleton] at hstyle
    push_neg at hstyle
    rw [cellFor]
    rw [if_neg (by simp [hstyle.1])]
    rw [if_neg (by simp [hstyle.2.1])]
    rw [if_neg (by simp [hstyle.2.2])]

/-- C9 witness: negative width raises, and an unrecognised style `"BOGUS"`
with a 1 by 2 extent constructs a grid whose cells are all `none`. -/
theorem grid_init_validates_only_dimensions_witness :
    (∃ e, Grid.init "SET" (-1) 2 = Except.error e) ∧
      (∃ g, Grid.init "SET" 1 2 = Except.ok g) ∧
      (∃ g, Grid.init "BOGUS" 1 2 = Except.ok g ∧
        ∀ row ∈ g.grid, ∀ c ∈ row, c = none) := by
  refine ⟨?_, ?_, ?_⟩
  · exact grid_init_validates_only_dimensions.1 "SET" (-1) 2 (by decide)
  · exact grid_init_validates_only_dimensions.2.1 "SET" 1 2 (by decide) (by decide)
  · exact grid_init_validates_only_dimensions.2.2 "BOGUS" 1 2 (by decide) (by decide)
      (by decide)

/-- C6: on a SEQUENCE cell holding distinctly named layers (entries keyed by
their layer's index, as `add` creates them), `special()` on an empty store is
a no-op, and on `m ≥ 1` layers removes from the primary store exactly the
entry whose layer sits at position `m / 2` (m odd) respectively `m / 2 - 1`
(m even) of the name-sorted secondary view — which is a name-sorted
permutation of the held layers. -/
theorem sequence_special_removes_name_median :
    ∀ l : List SeqEntry,
      (∀ e ∈ l, e.key = e.value.index) →
      (l.map fun e => e.value.name).Nodup →
      (l = [] → SequenceLayerStore.special l = some []) ∧
      (l ≠ [] → ∃ it : NameEntry,
        (SequenceLayerStore.buildNameView l).get?
            (if l.length % 2 == 1 then l.length / 2 else l.length / 2 - 1) = some it ∧
        ((SequenceLayerStore.buildNameView l).map fun e => e.value).Perm
            (l.map fun e => e.value) ∧
        (SequenceLayerStore.buildNameView l).Pairwise (fun a b => nameLe a.key b.key = true) ∧
        (⟨it.value, it.value.index⟩ : SeqEntry) ∈ l ∧
        SequenceLayerStore.special l =
          some (ArraySortedList.remove ⟨it.value, it.value.index⟩ l)) := by
  intro l hcoh hnodup
  constructor
  · intro hl
    subst hl
    rfl
  · intro hne
    obtain ⟨hperm, hpair, hlen⟩ := SequenceLayerStore.buildNameView_spec l hnodup
    have hm : 0 < l.length := List.length_pos.mpr hne
    have hidxlt : (if l.length % 2 == 1 then l.length / 2 else l.length / 2 - 1) <
        l.length := by
      have h2 : l.length / 2 < l.length := Nat.div_lt_self hm (by omega)
      split <;> omega
    have hidxlt2 : (if l.length % 2 == 1 then l.length / 2 else l.length / 2 - 1) <
        (SequenceLayerStore.buildNameView l).length := by
      rw [hlen]
      exact hidxlt
    have hget : (SequenceLayerStore.buildNameView l).get?
        (if l.length % 2 == 1 then l.length / 2 else l.length / 2 - 1) =
        some ((SequenceLayerStore.buildNameView l).get ⟨_, hidxlt2⟩) :=
      List.get?_eq_get hidxlt2
    have hitmem : (SequenceLayerStore.buildNameView l).get ⟨_, hidxlt2⟩ ∈
        SequenceLayerStore.buildNameView l := List.get_mem _ _ _
    have hitmem2 : (SequenceLayerStore.buildNameView l).get ⟨_, hidxlt2⟩ ∈
        l.map fun e => (⟨e.value, e.value.name⟩ : NameEntry) :=
      hperm.mem_iff.mp hitmem
    obtain ⟨e, he, hfe⟩ := List.mem_map.mp hitmem2
    have hval : ((SequenceLayerStore.buildNameView l).get ⟨_, hidxlt2⟩).value =
        e.value := by
      rw [← hfe]
    have hnit : (⟨((SequenceLayerStore.buildNameView l).get ⟨_, hidxlt2⟩).value,
        ((SequenceLayerStore.buildNameView l).get ⟨_, hidxlt2⟩).value.index⟩ :
          SeqEntry) = e := by
      have hk := hcoh e he
      rw [hval]
      obtain ⟨v, k⟩ := e
      simp only at hk ⊢
      rw [hk]
    have hnitmem : (⟨((SequenceLayerStore.buildNameView l).get ⟨_, hidxlt2⟩).value,
        ((SequenceLayerStore.buildNameView l).get ⟨_, hidxlt2⟩).value.index⟩ :
          SeqEntry) ∈ l := by
      rw [hnit]
      exact he
    obtain ⟨i, hi, herase⟩ := ArraySortedList.indexOfItem_of_mem _ l hnitmem
    refine ⟨(SequenceLayerStore.buildNameView l).get ⟨_, hidxlt2⟩, hget, ?_, hpair,
      hnitmem, ?_⟩
    · have hmap := hperm.map (fun e => e.value)
      rw [List.map_map] at hmap
      simpa using hmap
    · have hemp : l.isEmpty = false := by
        cases l
        · exact absurd rfl hne
        · rfl
      simp only [SequenceLayerStore.special, hemp, Bool.false_eq_true, if_false,
        hlen, hget, hi, ArraySortedList.delete_at_index, herase]

/-- C6 witness: on the four layers named `"b","a","d","c"` (m = 4, even), the
median rule picks position 1 of the name-sorted view — the layer named `"b"` —
and `special` removes exactly that layer from the primary store. -/
theorem sequence_special_removes_name_median_witness :
    SequenceLayerStore.special seqWitnessStore =
      some [⟨⟨1, "a"⟩, 1⟩, ⟨⟨2, "d"⟩, 2⟩, ⟨⟨3, "c"⟩, 3⟩] := by
  have h := sequence_special_removes_name_median seqWitnessStore
    (by decide) (by decide)
  obtain ⟨it, hget, -, -, -, hspec⟩ := h.2 (by decide)
  have hev : (SequenceLayerStore.buildNameView seqWitnessStore).get?
      (if seqWitnessStore.length % 2 == 1 then seqWitnessStore.length / 2
       else seqWitnessStore.length / 2 - 1) =
      some (⟨⟨0, "b"⟩, "b"⟩ : NameEntry) := by decide
  rw [hget] at hev
  have hit : it = ⟨⟨0, "b"⟩, "b"⟩ := Option.some.inj hev
  rw [hit] at hspec
  rw [hspec]
  decide

/-- C8: for non-negative coordinates, `AdditiveLayerStore.get_color` returns
the left-to-right fold of the layer transforms over the held sequence in
head-to-tail order starting from `start`, and leaves the held sequence exactly
as it was (the internal rotation restores the original order), so consecutive
reads see the same sequence. -/
theorem additive_get_color_folds_and_preserves
    (applyFn : Layer → Color → Int → Int → Int → Color)
    (q : List Layer) (start : Color) (t x y : Int)
    (hx : 0 ≤ x) (hy : 0 ≤ y) :
    AdditiveLayerStore.get_color applyFn q start t x y =
      some (q.foldl (fun c l => applyFn l c t x y) start, q) := by
  unfold AdditiveLayerStore.get_color
  rw [if_neg (by omega), if_neg (by omega)]
  have h := AdditiveLayerStore.getColorLoop_rotate applyFn t x y q [] start
  simp only [List.append_nil, List.nil_append] at h
  rw [h]

/-- C8 witness: a concrete two-layer read with an additive transform. -/
theorem additive_get_color_folds_and_preserves_witness :
    AdditiveLayerStore.get_color (fun l c _ _ _ => (c.1 + l.index, c.2.1, c.2.2))
        [⟨1, "a"⟩, ⟨2, "b"⟩] (0, 0, 0) 0 0 0 =
      some ((3, 0, 0), [⟨1, "a"⟩, ⟨2, "b"⟩]) := by
  have h := additive_get_color_folds_and_preserves
    (fun l c _ _ _ => (c.1 + l.index, c.2.1, c.2.2))
    [⟨1, "a"⟩, ⟨2, "b"⟩] (0, 0, 0) 0 0 0 (by decide) (by decide)
  rw [h]
  rfl

end PaintingApp
